import Mathlib

/-
Verification of the sequence-weighting engine and the CCMgen command-line
driver of this repository, shallowly embedded from
`ccmpred/weighting/__init__.py` and `ccmpred/scripts/run_ccmgen.py`.

Alignments are integer-coded matrices, embedded as `List (List ℕ)`
(N rows, each of length L; code 0 is the gap state).  Floating-point
weight arithmetic is embedded over `ℚ`.
-/

namespace CCMgen

/-- Number of alignment columns, `msa.shape[1]` (all rows share one length). -/
def ncol (msa : List (List ℕ)) : ℕ := (msa.headD []).length

/-- The list of codes appearing in column `l`, top row first. -/
def columnOf (msa : List (List ℕ)) (l : ℕ) : List ℕ :=
  msa.map (fun row => row.getD l 0)

/-- Modelled from the spec: `ccmpred.counts.single_counts` is not under
`src/`; per the spec's Henikoff description ("for each column l, count
occurrences of each alphabet state"), `single_counts msa l a` is the
occurrence count of state `a` in column `l`. -/
def single_counts (msa : List (List ℕ)) (l a : ℕ) : ℕ :=
  (columnOf msa l).count a

/-- Single counts after `weights_henikoff`'s gap adjustment:
`if not count_gaps: single_counts[:,0] = 0` zeroes the gap-state column. -/
def sc_adj (msa : List (List ℕ)) (cg : Bool) (l a : ℕ) : ℕ :=
  if a = 0 ∧ cg = false then 0 else single_counts msa l a

/-- `unique_aa = (single_counts != 0).sum(1)`: the number of states with a
nonzero (gap-adjusted) count at column `l`, i.e. the number of distinct
states observed there (gap excluded unless `cg`). -/
def unique_aa (msa : List (List ℕ)) (cg : Bool) (l : ℕ) : ℕ :=
  (((columnOf msa l).filter (fun a => cg || a != 0)).dedup).length

/-- Row `n` of `cNi = [single_counts[range(ncol), msa[n]] * unique_aa for n ...]`:
entry `l` is `single_counts[l, msa[n][l]] * unique_aa[l]`. -/
def cNiRow (msa : List (List ℕ)) (cg : Bool) (n : ℕ) : List ℕ :=
  (List.range (ncol msa)).map
    (fun l => sc_adj msa cg l ((msa.getD n []).getD l 0) * unique_aa msa cg l)

/-- `cNi_nogaps[n] = np.delete(cNi[n], np.where(cNi[n] == 0))`: row `n` of
`cNi` with its zero entries removed. -/
def cNiNogaps (msa : List (List ℕ)) (cg : Bool) (n : ℕ) : List ℕ :=
  (cNiRow msa cg n).filter (fun x => x != 0)

/-- Row `n` of `1/cNi_nogaps`: the reciprocals taken by `weights_henikoff`. -/
def recipRow (msa : List (List ℕ)) (cg : Bool) (n : ℕ) : List ℚ :=
  (cNiNogaps msa cg n).map (fun x : ℕ => 1 / (x : ℚ))

/-- Python's builtin `sum` over a 2-d numpy array iterates over the FIRST
axis: `sum(rows) = rows[0] + rows[1] + ...`, an elementwise sum of the row
vectors, i.e. a vector of per-column totals. -/
def columnSums : List (List ℚ) → List ℚ
  | [] => []
  | r :: rs => rs.foldl (fun acc s => List.zipWith (fun a b => a + b) acc s) r

/-- `weights_henikoff(msa, count_gaps)` from `ccmpred/weighting/__init__.py`.
The live code computes `cNi`, deletes the zero entries of each row, and
returns `sum(1/cNi_nogaps)` — Python's builtin `sum` over the row axis.
When the rows of `cNi_nogaps` end up with unequal lengths, numpy raises
(ragged object-array addition); that failure is embedded as `none`. -/
def weights_henikoff (msa : List (List ℕ)) (cg : Bool) : Option (List ℚ) :=
  let rows := (List.range msa.length).map (fun n => recipRow msa cg n)
  if rows.all (fun r => r.length == (rows.headD []).length) then
    some (columnSums rows)
  else
    none

/-- `weights_uniform(msa) = np.ones((msa.shape[0],))`. -/
def weights_uniform (msa : List (List ℕ)) : List ℚ :=
  List.replicate msa.length 1

/-- Fractional sequence identity of two rows, part of the model of the
missing C extension (see `calculate_weights_simple`): matching positions
over considered positions, where a position is considered when `cg` is
set or neither row has a gap there. -/
def seqIdentity (cg : Bool) (r s : List ℕ) : ℚ :=
  let ps := (r.zip s).filter (fun p => cg || (p.1 != 0 && p.2 != 0))
  ((ps.filter (fun p => p.1 == p.2)).length : ℚ) / (ps.length : ℚ)

/-- Modelled from the spec: `ccmpred.weighting.cext.calculate_weights_simple`
is a compiled C extension absent from `src/`.  Per the spec:
"weight[n] = 1 / (count of rows, including n, whose identity to row n
exceeds `cutoff`)". -/
def calculate_weights_simple (msa : List (List ℕ)) (cutoff : ℚ) (cg : Bool) :
    List ℚ :=
  msa.map (fun r =>
    1 / (((msa.filter (fun s => decide (cutoff < seqIdentity cg r s))).length : ℚ)))

/-- `weights_simple(msa, cutoff, count_gaps)`: returns `weights_uniform(msa)`
when `cutoff >= 1`, otherwise calls the C extension. -/
def weights_simple (msa : List (List ℕ)) (cutoff : ℚ) (cg : Bool) : List ℚ :=
  if 1 ≤ cutoff then weights_uniform msa
  else calculate_weights_simple msa cutoff cg

/-- Modelled from the spec: `ccmpred.counts.pair_counts` is not under
`src/`; per the spec ("pairwise state-occurrence counts"),
`pair_counts msa k l a b` counts the rows holding state `a` at column `k`
and state `b` at column `l`. -/
def pair_counts (msa : List (List ℕ)) (k l a b : ℕ) : ℕ :=
  (msa.filter (fun r => r.getD k 0 == a && r.getD l 0 == b)).length

/-- `unique_aa = (pair_counts != 0).sum(3).sum(2)`: the number of state
pairs `(a,b)` with a nonzero count at columns `(k,l)`, i.e. the number of
distinct pairs observed there. -/
def unique_aa_pair (msa : List (List ℕ)) (k l : ℕ) : ℕ :=
  ((msa.map (fun r => (r.getD k 0, r.getD l 0))).dedup).length

/-- The loop body of `weights_henikoff_pair`:
`1/(pair_counts[k,l, msa[n][k], msa[n][l]] * unique_aa[k,l])`. -/
def pairTerm (msa : List (List ℕ)) (n k l : ℕ) : ℚ :=
  1 / ((pair_counts msa k l ((msa.getD n []).getD k 0) ((msa.getD n []).getD l 0) : ℚ)
        * (unique_aa_pair msa k l : ℚ))

/-- `weights_henikoff_pair(msa)`: the nested loops
`for n in range(nrow): for k in range(ncol-1): for l in range(k+1, ncol)`
accumulating `pairTerm` into `henikoff[n]`. -/
def weights_henikoff_pair (msa : List (List ℕ)) : List ℚ :=
  (List.range msa.length).map (fun n =>
    ((List.range (ncol msa - 1)).map (fun k =>
      ((List.range' (k + 1) (ncol msa - (k + 1))).map
        (fun l => pairTerm msa n k l)).sum)).sum)

/-- The 4×5 worked example from the Henikoff 1994 paper, as written in the
source comment of `weights_henikoff`. -/
def henikoffExampleMsa : List (List ℕ) :=
  [[0,1,3,0,6],[0,2,4,0,2],[0,1,4,0,2],[0,1,5,0,0]]

/-- The command-line options of `run_ccmgen.py` that the validation and
dispatch logic reads, with Python truthiness made explicit: `tree_file`
and `tree_source` are falsy exactly when absent (`none`), `mutation_rate`
is falsy exactly when it equals its default `0.0`. -/
structure Options where
  mcmc : Bool
  tree_file : Option String
  tree_source : Option String
  mutation_rate : ℚ
  mutation_rate_neff : Bool
  burn_in : ℕ
  nseq : ℕ
  mcmc_burn_in : ℕ
  mcmc_nseq : ℕ
  mcmc_sample_type : String
deriving DecidableEq

/-- The argparse defaults of `parse_args`: no flags, `mutation_rate = 0.0`,
`burn_in = 500`, `nseq = 0`, `mcmc_burn_in = 500`, `mcmc_nseq = 10000`,
`mcmc_sample_type = "original"`. -/
def defaultOptions : Options :=
  { mcmc := false
    tree_file := none
    tree_source := none
    mutation_rate := 0
    mutation_rate_neff := false
    burn_in := 500
    nseq := 0
    mcmc_burn_in := 500
    mcmc_nseq := 10000
    mcmc_sample_type := "original" }

/-- The validation at the end of `parse_args`: `parser.error` (a fatal exit
before `main` proceeds) when neither an MCMC flag nor a tree spec is given,
or when a tree spec is given but both mutation-rate options are falsy. -/
def parseArgs (o : Options) : Except String Options :=
  if o.mcmc = false ∧ o.tree_source = none ∧ o.tree_file = none then
    Except.error "Need one of the tree options or mcmc-sampling!"
  else if (o.tree_source ≠ none ∨ o.tree_file ≠ none) ∧
      o.mutation_rate = 0 ∧ o.mutation_rate_neff = false then
    Except.error "Need one of the mutation-rate options!"
  else
    Except.ok o

/-- The sampling call selected by `main`'s dispatch chain. -/
inductive SamplingCall where
  | neffMatch (burnIn : ℕ)
  | treeSample (burnIn : ℕ) (rate : ℚ)
  | mcmcSample (size burnIn : ℕ) (sampleType : String)
deriving DecidableEq

/-- `main`'s dispatch: `tree` is always constructed (`CCMTree()` is called
unconditionally), so `tree is not None` is always true and the chain is
`if mutation_rate_neff ... elif mutation_rate > 0 ... else mcmc`. -/
def dispatch (o : Options) : SamplingCall :=
  if o.mutation_rate_neff then SamplingCall.neffMatch o.burn_in
  else if 0 < o.mutation_rate then SamplingCall.treeSample o.burn_in o.mutation_rate
  else SamplingCall.mcmcSample o.mcmc_nseq o.mcmc_burn_in o.mcmc_sample_type

/-- `if opt.nseq == 0: opt.nseq = ccm.N`: the effective leaf count. -/
def effNseq (o : Options) (alnRows : ℕ) : ℕ :=
  if o.nseq = 0 then alnRows else o.nseq

/-- Modelled from the spec: `ccmpred.trees.CCMTree.specify_tree` is not
under `src/`.  Per the spec, the tree collaborator resolves a topology with
one uniquely identified leaf per output sequence when a tree file or tree
source is requested; when neither is requested (pure MCMC run) there is no
resolved topology and hence no leaf identifiers. -/
def treeIds (o : Options) (alnRows : ℕ) : List String :=
  if o.tree_file ≠ none ∨ o.tree_source ≠ none then
    (List.range (effNseq o alnRows)).map toString
  else
    []

/-- Modelled from the spec: the sampling modules are not under `src/`.
Per the spec, the tree sampler returns one row per leaf and
`generate_mcmc_sample` returns `size` rows. -/
def rowsSampled (o : Options) (alnRows : ℕ) : ℕ :=
  match dispatch o with
  | SamplingCall.mcmcSample size _ _ => size
  | _ => effNseq o alnRows

/-- What a completed `main` run hands to the output writer: the sampling
call it made, the row count of the sampled alignment, and the identifier
list passed to `write_msa`.  The source passes `tree.ids` there (the local
`ids` variable it computes just above the call is never used). -/
structure RunOutcome where
  call : SamplingCall
  rows : ℕ
  idsHanded : List String
deriving DecidableEq

/-- Result of a `run_ccmgen` invocation: a fatal configuration error
raised inside `parse_args` (before the alignment is read, potentials are
loaded, or any sampling starts), or a completed run. -/
inductive MainResult where
  | configError (msg : String)
  | ok (out : RunOutcome)
deriving DecidableEq

/-- `main` of `run_ccmgen.py`, for an input alignment with `alnRows` rows:
`parse_args` validation runs first; on success the dispatch chain picks the
sampler and `write_msa` receives `tree.ids`. -/
def runMain (o : Options) (alnRows : ℕ) : MainResult :=
  match parseArgs o with
  | Except.error e => MainResult.configError e
  | Except.ok o2 =>
      MainResult.ok
        { call := dispatch o2
          rows := rowsSampled o2 alnRows
          idsHanded := treeIds o2 alnRows }

/-- The MCMC-only configuration: `--mcmc-sampling` with every other option
left at its default. -/
def mcmcOnlyOptions : Options := { defaultOptions with mcmc := true }

/-- A tree-sampling configuration with mutation rate `r`:
`--tree-binary --mutation-rate r`, all else default. -/
def treeRateOptions (r : ℚ) : Options :=
  { defaultOptions with tree_source := some "binary", mutation_rate := r }

/-- The contact-mask zeroing of `main`:
`ccm.x_pair[non_contact_indices[0], non_contact_indices[1], :, :] = 0`
forces the coupling block of every non-contact column pair to zero and
keeps contact pairs unchanged (`mask i j = true` means contact). -/
def applyContactMask {ι κ : Type} (pair : ι → ι → κ → κ → ℚ)
    (mask : ι → ι → Bool) : ι → ι → κ → κ → ℚ :=
  fun i j a b => if mask i j then pair i j a b else 0

/-- The coupling-tensor symmetry invariant `pair[i,j,a,b] == pair[j,i,b,a]`. -/
def pairSymm {ι κ : Type} (pair : ι → ι → κ → κ → ℚ) : Prop :=
  ∀ i j a b, pair i j a b = pair j i b a

/-- The zero-self-coupling invariant `pair[i,i,a,b] == 0`. -/
def selfZero {ι κ : Type} (pair : ι → ι → κ → κ → ℚ) : Prop :=
  ∀ i a b, pair i i a b = 0

/-- A concrete symmetric coupling tensor with zero self-coupling on a
2-column, 1-state model. -/
def pairCex : Fin 2 → Fin 2 → Fin 1 → Fin 1 → ℚ :=
  fun i j _ _ => if i ≠ j then 1 else 0

/-- A concrete asymmetric contact mask: `(0,1)` is a non-contact while
`(1,0)` is a contact. -/
def maskCex : Fin 2 → Fin 2 → Bool :=
  fun i j => !(i = 0 && j = 1)

/-- C9: for every alignment with N rows, `weights_uniform` returns a vector
of length N whose every entry equals 1, independent of the contents. -/
theorem weights_uniform_ones (msa : List (List ℕ)) :
    (weights_uniform msa).length = msa.length ∧
      ∀ w ∈ weights_uniform msa, w = (1 : ℚ) := by
  refine ⟨List.length_replicate _ _, ?_⟩
  intro w hw
  exact List.eq_of_mem_replicate hw

/-- Witness for C9 at a concrete two-row alignment. -/
theorem weights_uniform_ones_witness :
    (weights_uniform [[0,1],[2,3]]).length = 2 ∧ (1 : ℚ) = 1 :=
  ⟨(weights_uniform_ones [[0,1],[2,3]]).1,
   (weights_uniform_ones [[0,1],[2,3]]).2 1 (by decide)⟩

/-- C3: for every alignment, every `count_gaps` flag and every
`cutoff ≥ 1`, `weights_simple` returns exactly `weights_uniform msa`: the
`cutoff >= 1` branch returns before the pairwise-identity C extension is
ever invoked. -/
theorem weights_simple_cutoff_ge_one (msa : List (List ℕ)) (cutoff : ℚ)
    (cg : Bool) (h : 1 ≤ cutoff) :
    weights_simple msa cutoff cg = weights_uniform msa := by
  unfold weights_simple
  rw [if_pos h]

/-- Witness for C3 at `cutoff = 1`. -/
theorem weights_simple_cutoff_ge_one_witness :
    weights_simple [[0,1],[0,1]] 1 false = weights_uniform [[0,1],[0,1]] :=
  weights_simple_cutoff_ge_one [[0,1],[0,1]] 1 false (by norm_num)

/-- C4: for every alignment, flag and row `n`, the entries whose product
`count * unique_aa` is zero are removed before reciprocals are taken:
every surviving entry is nonzero, every nonzero entry survives, and every
reciprocal actually computed is `1/x` for some nonzero product `x` — no
division-by-zero term is ever formed. -/
theorem henikoff_zero_products_skipped (msa : List (List ℕ)) (cg : Bool)
    (n : ℕ) :
    (∀ x ∈ cNiNogaps msa cg n, x ≠ 0) ∧
    (∀ x ∈ cNiRow msa cg n, x ≠ 0 → x ∈ cNiNogaps msa cg n) ∧
    (∀ y ∈ recipRow msa cg n,
      ∃ x, x ∈ cNiRow msa cg n ∧ x ≠ 0 ∧ y = 1 / (x : ℚ)) := by
  refine ⟨?_, ?_, ?_⟩
  · intro x hx
    have hmem := List.mem_filter.mp hx
    simpa using hmem.2
  · intro x hx hne
    exact List.mem_filter.mpr ⟨hx, by simpa using hne⟩
  · intro y hy
    unfold recipRow at hy
    rcases List.mem_map.mp hy with ⟨x, hx, rfl⟩
    have hmem := List.mem_filter.mp hx
    exact ⟨x, hmem.1, by simpa using hmem.2, rfl⟩

/-- Witness for C4 on a concrete alignment: the surviving product 2 at
row 0 of `[[1],[1]]` is nonzero. -/
theorem henikoff_zero_products_skipped_witness : (2 : ℕ) ≠ 0 :=
  (henikoff_zero_products_skipped [[1],[1]] false 0).1 2 (by decide)

/-- C1: on the canonical Henikoff worked example the reference weights are
`[4/3, 4/3, 1, 4/3]`, as the source's own comment records — but the live
code's `sum(1/cNi_nogaps)` sums over the row axis, so with gap counting it
returns the five per-column sums `[1,1,1,1,1]` (wrong values and wrong
length for a 4-row alignment), and with the default `count_gaps=False` the
rows of `cNi_nogaps` are ragged and numpy raises (embedded as `none`).
Neither call produces the documented reference vector. -/
theorem weights_henikoff_example_eval :
    weights_henikoff henikoffExampleMsa true = some [1, 1, 1, 1, 1] ∧
    weights_henikoff henikoffExampleMsa false = none ∧
    henikoffExampleMsa.length = 4 := by
  refine ⟨?_, ?_, rfl⟩ <;>
    norm_num [weights_henikoff, recipRow, cNiNogaps, cNiRow, ncol, sc_adj,
      single_counts, unique_aa, columnOf, columnSums, henikoffExampleMsa,
      List.range_succ]

/-- C2: `weights_uniform`, `weights_simple` and `weights_henikoff_pair`
return one entry per alignment row, but `weights_henikoff` does not: on
the 2-row alignment `[[1],[1]]` it returns the single-entry vector `[1]`
(the per-column sum), violating the one-weight-per-row contract. -/
theorem weights_henikoff_wrong_length_eval :
    weights_henikoff [[1],[1]] false = some [1] ∧
    (weights_uniform [[1],[1]]).length = 2 ∧
    (weights_simple [[1],[1]] (1/2) false).length = 2 ∧
    (weights_henikoff_pair [[1],[1]]).length = 2 ∧
    ([[1],[1]] : List (List ℕ)).length = 2 := by
  refine ⟨?_, by decide, ?_, ?_, rfl⟩
  · norm_num [weights_henikoff, recipRow, cNiNogaps, cNiRow, ncol, sc_adj,
      single_counts, unique_aa, columnOf, columnSums, List.range_succ]
  · norm_num [weights_simple, calculate_weights_simple, weights_uniform]
  · norm_num [weights_henikoff_pair, List.range_succ]

/-- Summing a function mapped over `List.range` is the sum over
`Finset.range`. -/
theorem sum_map_range (f : ℕ → ℚ) (n : ℕ) :
    ((List.range n).map f).sum = ∑ i in Finset.range n, f i := by
  induction n with
  | zero => simp
  | succ m ih => simp [List.range_succ, Finset.sum_range_succ, ih]

/-- Summing a function mapped over `List.range' s m` is the sum of
`f (s + i)` over `Finset.range m`. -/
theorem sum_map_range_from (f : ℕ → ℚ) (s m : ℕ) :
    ((List.range' s m).map f).sum = ∑ i in Finset.range m, f (s + i) := by
  induction m generalizing s with
  | zero => simp
  | succ t ih =>
      rw [List.range'_succ, List.map_cons, List.sum_cons, ih (s + 1),
        Finset.sum_range_succ']
      simp only [Nat.add_zero]
      rw [add_comm]
      congr 1
      refine Finset.sum_congr rfl ?_
      intro i _
      congr 1
      omega

/-- The nested loops `for k in range(m-1): for l in range(k+1, m)` sum a
term over exactly the ordered pairs `(k, l)` with `k < l < m`. -/
theorem double_loop_sum (f : ℕ → ℕ → ℚ) (m : ℕ) :
    ((List.range (m - 1)).map (fun k =>
      ((List.range' (k + 1) (m - (k + 1))).map (f k)).sum)).sum =
    ∑ k in Finset.range m, ∑ l in Finset.range m,
      if k < l then f k l else 0 := by
  have inner : ∀ k, ((List.range' (k + 1) (m - (k + 1))).map (f k)).sum =
      ∑ l in Finset.range m, if k < l then f k l else 0 := by
    intro k
    rw [sum_map_range_from, ← Finset.sum_filter]
    have hIco : (Finset.range m).filter (fun l => k < l) =
        Finset.Ico (k + 1) m := by
      ext l
      simp only [Finset.mem_filter, Finset.mem_range, Finset.mem_Ico]
      omega
    rw [hIco, Finset.sum_Ico_eq_sum_range]
  rw [sum_map_range]
  have hcongr : ∑ k in Finset.range (m - 1),
      ((List.range' (k + 1) (m - (k + 1))).map (f k)).sum =
      ∑ k in Finset.range (m - 1), ∑ l in Finset.range m,
        if k < l then f k l else 0 :=
    Finset.sum_congr rfl (fun k _ => inner k)
  rw [hcongr]
  cases m with
  | zero => simp
  | succ t =>
      rw [Finset.sum_range_succ]
      have hlast : (∑ l in Finset.range (t + 1),
          if t < l then f t l else 0) = 0 := by
        refine Finset.sum_eq_zero ?_
        intro l hl
        rw [if_neg]
        have := Finset.mem_range.mp hl
        omega
      simp [hlast]

/-- C5: `weights_henikoff_pair` returns one weight per alignment row, and
the weight of row `n` is the sum over the ordered column pairs `(k, l)`
with `k < l` of `1/(pair_counts[k,l, msa[n,k], msa[n,l]] * unique_aa[k,l])`;
the `k < l` guard counts each unordered pair exactly once. -/
theorem henikoff_pair_sum_over_pairs (msa : List (List ℕ)) :
    weights_henikoff_pair msa =
      (List.range msa.length).map (fun n =>
        ∑ k in Finset.range (ncol msa), ∑ l in Finset.range (ncol msa),
          if k < l then pairTerm msa n k l else 0) := by
  unfold weights_henikoff_pair
  refine List.map_congr_left ?_
  intro n _
  exact double_loop_sum (fun k l => pairTerm msa n k l) (ncol msa)

/-- C6: a configuration with neither an MCMC flag nor a tree specification,
or one with a tree specification but with both mutation-rate options left
unsupplied (so `mutation_rate` keeps its falsy default `0.0` and
`mutation_rate_neff` stays false), makes `parse_args` raise a fatal error;
`runMain` then yields `configError` and no sampling call, row or identifier
handling ever happens — `parse_args` runs before the alignment is read,
the potentials are loaded, or any sampler is invoked. -/
theorem config_errors_fatal_before_sampling (o : Options) (alnRows : ℕ) :
    (o.mcmc = false ∧ o.tree_source = none ∧ o.tree_file = none →
      ∃ e, runMain o alnRows = MainResult.configError e) ∧
    ((o.tree_source ≠ none ∨ o.tree_file ≠ none) ∧ o.mutation_rate = 0 ∧
        o.mutation_rate_neff = false →
      ∃ e, runMain o alnRows = MainResult.configError e) := by
  constructor
  · intro h
    have heq : runMain o alnRows =
        MainResult.configError "Need one of the tree options or mcmc-sampling!" := by
      unfold runMain parseArgs
      rw [if_pos h]
    exact ⟨_, heq⟩
  · intro h
    have hneg : ¬(o.mcmc = false ∧ o.tree_source = none ∧
        o.tree_file = none) := by
      rcases h.1 with h1 | h1
      · exact fun hc => h1 hc.2.1
      · exact fun hc => h1 hc.2.2
    have heq : runMain o alnRows =
        MainResult.configError "Need one of the mutation-rate options!" := by
      unfold runMain parseArgs
      rw [if_neg hneg, if_pos h]
    exact ⟨_, heq⟩

/-- Witness for C6: the all-defaults configuration (no MCMC flag, no tree
options) is rejected. -/
theorem config_errors_fatal_before_sampling_witness :
    ∃ e, runMain defaultOptions 7 = MainResult.configError e :=
  (config_errors_fatal_before_sampling defaultOptions 7).1 ⟨rfl, rfl, rfl⟩

/-- C10: a configuration with a tree specification and a strictly negative
constant mutation rate passes `parse_args` validation (a nonzero rate is
truthy), but `main`'s dispatch skips the tree sampler (which needs
`mutation_rate > 0`) and falls through to `generate_mcmc_sample` with the
configuration's MCMC sample count and burn-in — the argparse defaults
10000 and 500 when no MCMC option was given. -/
theorem negative_mutation_rate_dispatches_mcmc (o : Options)
    (htree : o.tree_source ≠ none ∨ o.tree_file ≠ none)
    (hrate : o.mutation_rate < 0)
    (hneff : o.mutation_rate_neff = false) :
    parseArgs o = Except.ok o ∧
    dispatch o = SamplingCall.mcmcSample o.mcmc_nseq o.mcmc_burn_in
      o.mcmc_sample_type := by
  constructor
  · have h1 : ¬(o.mcmc = false ∧ o.tree_source = none ∧
        o.tree_file = none) := by
      rcases htree with ht | ht
      · exact fun hc => ht hc.2.1
      · exact fun hc => ht hc.2.2
    have h2 : ¬((o.tree_source ≠ none ∨ o.tree_file ≠ none) ∧
        o.mutation_rate = 0 ∧ o.mutation_rate_neff = false) :=
      fun hc => absurd hc.2.1 (ne_of_lt hrate)
    unfold parseArgs
    rw [if_neg h1, if_neg h2]
  · unfold dispatch
    rw [hneff]
    simp only [Bool.false_eq_true, if_false]
    rw [if_neg (not_lt.mpr hrate.le)]

/-- Witness for C10: `--tree-binary --mutation-rate -1` with all other
options default is accepted and dispatched to the MCMC sampler with the
default sample count 10000 and burn-in 500. -/
theorem negative_mutation_rate_dispatches_mcmc_witness :
    parseArgs (treeRateOptions (-1)) = Except.ok (treeRateOptions (-1)) ∧
    dispatch (treeRateOptions (-1)) =
      SamplingCall.mcmcSample 10000 500 "original" :=
  negative_mutation_rate_dispatches_mcmc (treeRateOptions (-1))
    (Or.inl (Option.some_ne_none "binary"))
    (by norm_num [treeRateOptions, defaultOptions])
    rfl

/-- C8: for the MCMC-only configuration on a 2-row input alignment, the
identifier list handed to `write_msa` is `tree.ids` of the (unrequested)
tree — not the seed-pool identifier list the code computes into its dead
local `ids` variable — so the writer receives a list whose length cannot
match the 10000 generated rows. -/
theorem mcmc_ids_not_row_matched :
    runMain mcmcOnlyOptions 2 =
      MainResult.ok
        { call := SamplingCall.mcmcSample 10000 500 "original"
          rows := 10000
          idsHanded := [] } ∧
    ([] : List String).length ≠ 10000 := by
  exact ⟨by decide, by decide⟩

/-- C7 counterexample: a symmetric coupling tensor with zero self-coupling
and a non-symmetric contact mask for which the zeroing step breaks the
symmetry invariant `pair[i,j,a,b] == pair[j,i,b,a]`. -/
theorem contact_mask_symmetry_not_preserved :
    pairSymm pairCex ∧ selfZero pairCex ∧
      ¬ pairSymm (applyContactMask pairCex maskCex) := by
  refine ⟨?_, ?_, ?_⟩
  · unfold pairSymm
    decide
  · unfold selfZero
    decide
  · unfold pairSymm applyContactMask
    decide

/-- C7 (amended): for every symmetric coupling tensor with zero
self-coupling and every SYMMETRIC contact mask (`mask i j = mask j i`, as
produced by thresholding the symmetric Cbeta-distance matrix), the
contact-mask zeroing preserves `pair[i,j,a,b] == pair[j,i,b,a]`. -/
theorem contact_mask_preserves_symmetry {ι κ : Type}
    (pair : ι → ι → κ → κ → ℚ) (mask : ι → ι → Bool)
    (hsym : pairSymm pair) (_hself : selfZero pair)
    (hmask : ∀ i j, mask i j = mask j i) :
    pairSymm (applyContactMask pair mask) := by
  intro i j a b
  unfold applyContactMask
  rw [hmask i j]
  by_cases h : mask j i = true
  · rw [if_pos h, if_pos h]
    exact hsym i j a b
  · rw [if_neg h, if_neg h]

/-- Witness for C7's amended theorem: the all-contacts mask is symmetric
and the zeroed tensor stays symmetric. -/
theorem contact_mask_preserves_symmetry_witness :
    pairSymm (applyContactMask pairCex (fun _ _ => true)) :=
  contact_mask_preserves_symmetry pairCex (fun _ _ => true)
    (by unfold pairSymm; decide) (by unfold selfZero; decide)
    (fun _ _ => rfl)

end CCMgen
